import Mathlib

set_option maxRecDepth 8000

/-!
Verification of the bullet-selection / quota-allocation algorithm and the
text-layout core of the PitchDecker deck builder (`src/app.py`).

Embedding conventions:

* Python strings are embedded as lists of characters (`Str`); `len`,
  concatenation and `"str".split()` become list operations.
* Python floats are embedded as exact rationals; every numeric constant in
  the program is a small decimal literal, and on all concrete inputs checked
  here the binary-float computation and the exact-rational computation agree.
* The four category keys of the WHAC dictionaries are embedded as the
  inductive type `Cat`.  `Cat.strRank` records the lexicographic order of
  the four key strings, "CYDI" < "HOW" < "SURE" < "WHAT", which is the order
  Python uses to break ties when sorting `(fraction, key)` pairs in
  `target_counts`.
* Python's stable ascending `sorted`/`list.sort` is embedded as a stable
  insertion sort (`sortDesc` for `sorted(..., reverse=True)`, `sortByIdx`
  for `list.sort(key=lambda x: x["idx"])`).
-/

/-- Python `str` as a sequence of characters. -/
abbrev Str := List Char

/-- Helper for `text.split()`: walk the characters, `cur` being the
(possibly empty) chunk of non-whitespace characters accumulated so far. -/
def pySplitAux : Str → Str → List Str
  | [], cur => if cur = [] then [] else [cur]
  | c :: s, cur =>
      if c.isWhitespace then
        (if cur = [] then pySplitAux s [] else cur :: pySplitAux s [])
      else pySplitAux s (cur ++ [c])

/-- Python `text.split()` — split on runs of whitespace, no empty chunks. -/
def pySplit (s : Str) : List Str := pySplitAux s []

/-- Python `" ".join(ws)`. -/
def joinSp : List Str → Str
  | [] => []
  | [w] => w
  | w :: v :: ws => w ++ ' ' :: joinSp (v :: ws)

/-- `src/app.py` 49–62, `wrap_chars(text, max_chars)`: greedy word wrap.
`lines, cur = [], words[0]`; each further word is appended to `cur` when
`len(cur) + 1 + len(w) <= max_chars`, otherwise `cur` is flushed. -/
def wrapStep (max_chars : ℕ) (acc : List Str × Str) (w : Str) : List Str × Str :=
  if acc.2.length + 1 + w.length ≤ max_chars then (acc.1, acc.2 ++ ' ' :: w)
  else (acc.1 ++ [acc.2], w)

def wrap_chars (text : Str) (max_chars : ℕ) : List Str :=
  match pySplit text with
  | [] => [[]]
  | w0 :: rest =>
      let p := rest.foldl (wrapStep max_chars) ([], w0)
      p.1 ++ [p.2]

/-- `src/app.py` 64–78, `wrap_by_wordcount(text, max_words)`: accumulate up
to `max_words` words in `bucket`, flushing `" ".join(bucket)` when full;
a final non-empty bucket is flushed after the loop. -/
def wcStep (max_words : ℕ) (acc : List Str × List Str) (w : Str) : List Str × List Str :=
  if acc.2.length < max_words then (acc.1, acc.2 ++ [w])
  else (acc.1 ++ [joinSp acc.2], [w])

def wrap_by_wordcount (text : Str) (max_words : ℕ) : List Str :=
  let words := pySplit text
  if words = [] then [[]]
  else
    let p := words.foldl (wcStep max_words) ([], [])
    if p.2 = [] then p.1 else p.1 ++ [joinSp p.2]

/-- The four WHAC category keys used throughout `src/app.py`. -/
inductive Cat : Type where
  | WHAT
  | HOW
  | SURE
  | CYDI
deriving DecidableEq, Repr

/-- Rank of each category key in the lexicographic (Unicode) order of the
key strings: "CYDI" < "HOW" < "SURE" < "WHAT". -/
def Cat.strRank : Cat → ℕ
  | .CYDI => 0
  | .HOW => 1
  | .SURE => 2
  | .WHAT => 3

/-- Python's `<` on the pairs `(raw[k]-floors[k], k)` of `target_counts`:
lexicographic on (fraction, key string). -/
def ltLex (a b : ℚ × Cat) : Prop :=
  a.1 < b.1 ∨ (a.1 = b.1 ∧ a.2.strRank < b.2.strRank)

instance (a b : ℚ × Cat) : Decidable (ltLex a b) := by
  unfold ltLex; infer_instance

/-- One step of the stable descending insertion embedding
`sorted(..., reverse=True)`: `x` is placed before the first element that is
strictly smaller, hence after any element equal to it. -/
def insDesc (x : ℚ × Cat) : List (ℚ × Cat) → List (ℚ × Cat)
  | [] => [x]
  | y :: ys => if ltLex y x then x :: y :: ys else y :: insDesc x ys

/-- Python `sorted(pairs, reverse=True)` (stable, descending). -/
def sortDesc (l : List (ℚ × Cat)) : List (ℚ × Cat) :=
  l.foldl (fun acc x => insDesc x acc) []

/-- Python `floors[k] += 1` on the association list embedding the dict. -/
def bump (floors : List (Cat × ℤ)) (k : Cat) : List (Cat × ℤ) :=
  floors.map (fun p => if p.1 = k then (p.1, p.2 + 1) else p)

/-- `src/app.py` 200–201: `for i in range(remainder):
floors[fracs[i % len(fracs)][1]] += 1`, with `i` the current loop index and
the last argument the number of iterations still to run. -/
def distribute : List (Cat × ℤ) → List Cat → ℕ → ℕ → List (Cat × ℤ)
  | floors, _, _, 0 => floors
  | floors, ord, i, (r + 1) =>
      distribute (bump floors (ord.getD (i % ord.length) .WHAT)) ord (i + 1) r

/-- `raw = {k: total * v for k, v in ratios.items()}` (`src/app.py` 196). -/
def rawOf (total : ℤ) (ratios : List (Cat × ℚ)) : List (Cat × ℚ) :=
  ratios.map (fun p => (p.1, (total : ℚ) * p.2))

/-- `floors = {k: int(math.floor(x)) for k, x in raw.items()}` (line 197). -/
def floorsOf (total : ℤ) (ratios : List (Cat × ℚ)) : List (Cat × ℤ) :=
  (rawOf total ratios).map (fun p => (p.1, ⌊p.2⌋))

/-- `remainder = total - sum(floors.values())` (`src/app.py` 198). -/
def remainderOf (total : ℤ) (ratios : List (Cat × ℚ)) : ℤ :=
  total - ((floorsOf total ratios).map Prod.snd).sum

/-- `fracs = sorted([(raw[k] - floors[k], k) for k in ratios], reverse=True)`
(`src/app.py` 199). -/
def fracsOf (total : ℤ) (ratios : List (Cat × ℚ)) : List (ℚ × Cat) :=
  sortDesc ((rawOf total ratios).map (fun p => (p.2 - (⌊p.2⌋ : ℚ), p.1)))

/-- `src/app.py` 195–202, `target_counts(total, ratios)`: largest-remainder
quota allocation with round-robin distribution of the remainder over the
fraction-sorted key list. -/
def target_counts (total : ℤ) (ratios : List (Cat × ℚ)) : List (Cat × ℤ) :=
  distribute (floorsOf total ratios) ((fracsOf total ratios).map Prod.snd) 0
    (remainderOf total ratios).toNat

/-- The fixed WHAC ratios `{"WHAT": 0.50, "HOW": 0.27, "SURE": 0.15,
"CYDI": 0.08}` (`src/app.py` 313 and 499). -/
def WHAC_RATIOS : List (Cat × ℚ) :=
  [(.WHAT, 50/100), (.HOW, 27/100), (.SURE, 15/100), (.CYDI, 8/100)]

/-- One candidate bullet of the Build Deck pool (`src/app.py` 483–489). -/
structure Bullet where
  text : String
  priority : ℤ
  link : String
  category : Cat
  idx : ℕ
deriving DecidableEq, Repr

/-- One step of the stable ascending insertion embedding
`list.sort(key=lambda x: x["idx"])`: `x` is placed before the first element
with a strictly larger key, hence after any element with an equal key. -/
def insIdx (x : Bullet) : List Bullet → List Bullet
  | [] => [x]
  | y :: ys => if x.idx < y.idx then x :: y :: ys else y :: insIdx x ys

/-- Python `list.sort(key=lambda x: x["idx"])` (stable, ascending). -/
def sortByIdx (l : List Bullet) : List Bullet :=
  l.foldl (fun acc x => insIdx x acc) []

/-- The HIGH tier of category `c`: pool entries of that category with
`priority >= 5`, sorted by original index (`src/app.py` 502–508). -/
def tierH (pool : List Bullet) (c : Cat) : List Bullet :=
  sortByIdx (pool.filter (fun b => b.category = c ∧ 5 ≤ b.priority))

/-- The MEDIUM tier of category `c`: pool entries of that category with
`priority < 5`, sorted by original index (`src/app.py` 502–509). -/
def tierM (pool : List Bullet) (c : Cat) : List Bullet :=
  sortByIdx (pool.filter (fun b => b.category = c ∧ ¬ 5 ≤ b.priority))

/-- `src/app.py` 511–520: fill category `c` with `highs[:cap]`, then, if the
cap is not yet reached, with `meds[:cap - len(take)]`. -/
def select (pool : List Bullet) (cap : ℕ) (c : Cat) : List Bullet :=
  let take := (tierH pool c).take cap
  if take.length < cap then take ++ (tierM pool c).take (cap - take.length)
  else take

/-- Python 3 `round()` on an exact rational: nearest integer, ties to the
even neighbour (round-half-to-even). -/
def pyRound (q : ℚ) : ℤ :=
  if q - ⌊q⌋ < 1/2 then ⌊q⌋
  else if 1/2 < q - ⌊q⌋ then ⌊q⌋ + 1
  else if ⌊q⌋ % 2 = 0 then ⌊q⌋ else ⌊q⌋ + 1

/-- `keep_fraction = 0.50` (`src/app.py` 495). -/
def keep_fraction : ℚ := 50/100

/-- `kept_total = max(1, int(round(len(pool) * keep_fraction)))`
(`src/app.py` 496). -/
def kept_total (pool : List Bullet) : ℤ :=
  max 1 (pyRound ((pool.length : ℚ) * keep_fraction))

/-- `src/app.py` 492–520 in one piece: given the (already filtered) pool,
compute `kept_total`, the per-category targets, and the selection for each
category, in the iteration order of the `targets` dict. -/
def build_selection (pool : List Bullet) : List (Cat × List Bullet) :=
  let targets := target_counts (kept_total pool) WHAC_RATIOS
  targets.map (fun p => (p.1, select pool p.2.toNat p.1))

/-- Line height in inches, `(font_pt * 1.35) / 72.0` (`src/app.py` 105). -/
def line_height_in (font_pt : ℚ) : ℚ := font_pt * (135/100) / 72

/-- The clamped vertical-placement formula shared verbatim by
`add_left_bullets_vert_center` (`src/app.py` 108–111) and
`add_center_paragraph` (`src/app.py` 148–151):
center in the region, lift by `uplift_ratio` of the available height, and
clamp so the block never starts above `top_in`. -/
def start_top (top_in bottom_in total_h_in uplift_ratio : ℚ) : ℚ :=
  let avail_h := bottom_in - top_in
  let base_top := top_in + max 0 ((avail_h - total_h_in) / 2)
  max top_in (base_top - uplift_ratio * avail_h)

/-- `raw = [l for l in (lines or ["—"]) if (l or "").strip()] or ["—"]`
(`src/app.py` 101). -/
def bullets_raw (lines : List Str) : List Str :=
  let base := if lines = [] then [['—']] else lines
  let raw0 := base.filter (fun l => l.any (fun c => !c.isWhitespace))
  if raw0 = [] then [['—']] else raw0

/-- Total block height of `add_left_bullets_vert_center`
(`src/app.py` 102–106). -/
def bullets_total_h (lines : List Str) (font_pt : ℚ) (wrap_limit : ℕ) : ℚ :=
  let wrapped := (bullets_raw lines).map (fun l => wrap_chars l wrap_limit)
  let total_lines := (wrapped.map List.length).sum
  ((max 1 total_lines : ℕ) : ℚ) * line_height_in font_pt

/-- The vertical start computed by `add_left_bullets_vert_center`
(`src/app.py` 95–111). -/
def add_left_bullets_vert_center_top (lines : List Str) (font_pt : ℚ)
    (top_in bottom_in uplift_ratio : ℚ) (wrap_limit : ℕ) : ℚ :=
  start_top top_in bottom_in (bullets_total_h lines font_pt wrap_limit) uplift_ratio

/-- Total block height of `add_center_paragraph` (`src/app.py` 144–147). -/
def para_total_h (text : Str) (font_pt : ℚ) (wrap_limit : ℕ) : ℚ :=
  let chunks := wrap_chars (if text = [] then ['—'] else text) wrap_limit
  ((max 1 chunks.length : ℕ) : ℚ) * line_height_in font_pt

/-- The vertical start computed by `add_center_paragraph`
(`src/app.py` 137–151). -/
def add_center_paragraph_top (text : Str) (font_pt : ℚ)
    (top_in bottom_in uplift_ratio : ℚ) (wrap_limit : ℕ) : ℚ :=
  start_top top_in bottom_in (para_total_h text font_pt wrap_limit) uplift_ratio

/-- The fixed team-slide text (`src/app.py` 406–407). -/
def team_text : Str :=
  ("Diverse, resourceful, motivated team, battle-hardened by 31 years of combined entrepreneurial experience.").toList

/-- `team_lines = wrap_by_wordcount(team_text, max_words=2)`
(`src/app.py` 408). -/
def team_lines : List Str := wrap_by_wordcount team_text 2

/-- `total_h_in = max(1, len(team_lines)) * line_h_in` with 30 pt font
(`src/app.py` 411–412). -/
def team_total_h : ℚ := ((max 1 team_lines.length : ℕ) : ℚ) * line_height_in 30

/-- The team-slide text block placement (`src/app.py` 397, 413–414):
`avail_h2 = 6.5 - 2.0`, `base_top = 2.0 + max(0.0, (avail_h2 - total_h)/2)`,
`top_right = base_top - 0.20 * avail_h2` — with NO clamp to the region top. -/
def team_top_of (total_h : ℚ) : ℚ :=
  let avail_h2 : ℚ := 13/2 - 2
  (2 + max 0 ((avail_h2 - total_h) / 2)) - (20/100) * avail_h2

/-- The vertical start actually used for the team text block. -/
def team_text_top : ℚ := team_top_of team_total_h

/-- The image placement used for the mission image (`src/app.py` 352–355)
and the team image (`src/app.py` 397–399): `y_center = top + avail/2 -
0.20*avail`, image top `= y_center - img_h/2` — no clamping at all. -/
def image_top (content_top content_bottom img_h : ℚ) : ℚ :=
  let avail_h := content_bottom - content_top
  (content_top + avail_h / 2 - (20/100) * avail_h) - img_h / 2

/-! ### Vertical placement (C4, C5) -/

lemma start_top_ge (top_in bottom_in total_h_in uplift_ratio : ℚ) :
    top_in ≤ start_top top_in bottom_in total_h_in uplift_ratio :=
  le_max_left _ _

lemma start_top_eq_top (top_in bottom_in total_h_in uplift_ratio : ℚ)
    (htb : top_in ≤ bottom_in) (hup : 0 ≤ uplift_ratio)
    (hh : bottom_in - top_in < total_h_in) :
    start_top top_in bottom_in total_h_in uplift_ratio = top_in := by
  have hshift : 0 ≤ uplift_ratio * (bottom_in - top_in) :=
    mul_nonneg hup (by linarith)
  have h1 : max 0 ((bottom_in - top_in - total_h_in) / 2) = 0 :=
    max_eq_left (by linarith)
  simp only [start_top, h1]
  exact max_eq_left (by linarith)

/-- **C5.** For every content region with `top ≤ bottom`, every content
height and every non-negative uplift ratio, the vertical placement
`start_top` computed identically by `add_left_bullets_vert_center`
(`src/app.py` 108–111) and `add_center_paragraph` (`src/app.py` 148–151)
satisfies `startTop ≥ top`; and whenever the content height exceeds the
region height `bottom − top`, `startTop = top` exactly. -/
theorem start_top_spec (top_in bottom_in total_h_in uplift_ratio : ℚ)
    (htb : top_in ≤ bottom_in) (hup : 0 ≤ uplift_ratio) :
    top_in ≤ start_top top_in bottom_in total_h_in uplift_ratio ∧
    (bottom_in - top_in < total_h_in →
      start_top top_in bottom_in total_h_in uplift_ratio = top_in) :=
  ⟨start_top_ge _ _ _ _, fun hh => start_top_eq_top _ _ _ _ htb hup hh⟩

/-- Witness for C5 at the concrete body region 2.0–6.5 with an overflowing
content height of 5 inches and the program's uplift ratio 0.20. -/
theorem start_top_spec_witness :
    ((2 : ℚ) ≤ 13/2 ∧ (0 : ℚ) ≤ 20/100 ∧ (13/2 : ℚ) - 2 < 5) ∧
    (2 : ℚ) ≤ start_top 2 (13/2) 5 (20/100) ∧
    start_top 2 (13/2) 5 (20/100) = 2 := by
  refine ⟨⟨by norm_num, by norm_num, by norm_num⟩, ?_, ?_⟩
  · exact (start_top_spec 2 (13/2) 5 (20/100) (by norm_num) (by norm_num)).1
  · exact (start_top_spec 2 (13/2) 5 (20/100) (by norm_num) (by norm_num)).2
      (by norm_num)

lemma team_lines_length : team_lines.length = 6 := by decide

lemma team_total_h_eq : team_total_h = 27/8 := by
  rw [team_total_h, team_lines_length]
  norm_num [line_height_in]

/-- **C4 counterexample.** The claim says the clamped placement formula is
applied identically to the team-slide text block and to the images.  It is
not: at the height the team text block actually has (27/8 in), and at an
image height of 4 in, the unclamped placements used at `src/app.py` 411–414
and 352–355 start strictly above the region top, while the clamped formula
of `add_left_bullets_vert_center`/`add_center_paragraph` returns the top. -/
theorem placement_not_uniform :
    team_text_top ≠ start_top 2 (13/2) team_total_h (20/100) ∧
    image_top 2 (13/2) 4 ≠ start_top 2 (13/2) 4 (20/100) := by
  constructor
  · rw [team_text_top, team_total_h_eq]
    have h1 : team_top_of (27/8) = 133/80 := by
      rw [team_top_of]
      rw [show max (0:ℚ) ((13/2 - 2 - 27/8) / 2) = (13/2 - 2 - 27/8) / 2 from
        max_eq_right (by norm_num)]
      norm_num
    have h2 : start_top 2 (13/2) (27/8) (20/100) = 2 := by
      rw [start_top]
      rw [show max (0:ℚ) ((13/2 - 2 - 27/8) / 2) = (13/2 - 2 - 27/8) / 2 from
        max_eq_right (by norm_num)]
      rw [show (2:ℚ) + (13/2 - 2 - 27/8) / 2 - 20/100 * (13/2 - 2) = 133/80 by norm_num]
      exact max_eq_left (by norm_num)
    rw [h1, h2]; norm_num
  · have h1 : image_top 2 (13/2) 4 = 27/20 := by
      rw [image_top]; norm_num
    have h2 : start_top 2 (13/2) 4 (20/100) = 2 := by
      rw [start_top]
      rw [show max (0:ℚ) ((13/2 - 2 - 4) / 2) = (13/2 - 2 - 4) / 2 from
        max_eq_right (by norm_num)]
      rw [show (2:ℚ) + (13/2 - 2 - 4) / 2 - 20/100 * (13/2 - 2) = 27/20 by norm_num]
      exact max_eq_left (by norm_num)
    rw [h1, h2]; norm_num

/-- **C4 amended.** All three placements center the content and lift it by
0.20 of the available height, but only bullet blocks and centered
paragraphs clamp the result to the region top: the image placement and the
team text block omit the clamp.  The three formulas agree exactly whenever
the content height is at most 60% of the available height (in particular
they are NOT identical in general). -/
theorem placement_agrees_iff_content_small :
    (∀ top bottom h : ℚ, top ≤ bottom → h ≤ (60/100) * (bottom - top) →
      image_top top bottom h = start_top top bottom h (20/100)) ∧
    (∀ h : ℚ, h ≤ (60/100) * (13/2 - 2) →
      team_top_of h = start_top 2 (13/2) h (20/100)) := by
  constructor
  · intro top bottom h htb hsmall
    have havail : (0:ℚ) ≤ bottom - top := by linarith
    rw [image_top, start_top]
    rw [show max (0:ℚ) ((bottom - top - h) / 2) = (bottom - top - h) / 2 from
      max_eq_right (by linarith)]
    rw [show max top (top + (bottom - top - h) / 2 - 20/100 * (bottom - top))
        = top + (bottom - top - h) / 2 - 20/100 * (bottom - top) from
      max_eq_right (by linarith)]
    ring
  · intro h hsmall
    rw [team_top_of, start_top]
    rw [show max (2:ℚ) (2 + max 0 ((13/2 - 2 - h) / 2) - 20/100 * (13/2 - 2))
        = 2 + max 0 ((13/2 - 2 - h) / 2) - 20/100 * (13/2 - 2) from
      max_eq_right (by
        rw [show max (0:ℚ) ((13/2 - 2 - h) / 2) = (13/2 - 2 - h) / 2 from
          max_eq_right (by linarith)]
        linarith)]

/-- Witness for the amended C4 at content height 1 in the body region. -/
theorem placement_agrees_witness :
    ((2:ℚ) ≤ 13/2 ∧ (1:ℚ) ≤ (60/100) * (13/2 - 2)) ∧
    image_top 2 (13/2) 1 = start_top 2 (13/2) 1 (20/100) ∧
    team_top_of 1 = start_top 2 (13/2) 1 (20/100) := by
  refine ⟨⟨by norm_num, by norm_num⟩, ?_, ?_⟩
  · exact placement_agrees_iff_content_small.1 2 (13/2) 1 (by norm_num) (by norm_num)
  · exact placement_agrees_iff_content_small.2 1 (by norm_num)

/-! ### kept_total and round-half-to-even (C10) -/

lemma floor_add_half (m : ℕ) : ⌊(m : ℚ) + 1/2⌋ = m := by
  rw [Int.floor_eq_iff]
  constructor
  · push_cast; linarith
  · push_cast; linarith

lemma pyRound_half (m : ℕ) :
    pyRound ((m : ℚ) + 1/2) = if (m : ℤ) % 2 = 0 then (m : ℤ) else m + 1 := by
  rw [pyRound, floor_add_half]
  have hfrac : (m : ℚ) + 1/2 - ((m : ℤ) : ℚ) = 1/2 := by push_cast; ring
  rw [hfrac]
  norm_num

/-- **C10.** `kept_total` applies Python's round-half-to-even to
`len(pool) * 0.5`: for a pool of odd size `2m+1` the tie rounds to the
nearest even integer `2*((m+1)/2)`, and the `max(1, …)` floor changes the
value only when `m = 0`, i.e. only for pools of size `n ≤ 1`. -/
theorem kept_total_odd (pool : List Bullet) (m : ℕ)
    (hlen : pool.length = 2 * m + 1) :
    kept_total pool = max 1 ((2 * ((m + 1) / 2) : ℕ) : ℤ) ∧
    (1 ≤ m → kept_total pool = ((2 * ((m + 1) / 2) : ℕ) : ℤ)) := by
  have hq : ((pool.length : ℚ)) * keep_fraction = (m : ℚ) + 1/2 := by
    rw [hlen, keep_fraction]; push_cast; ring
  have hkt : kept_total pool = max 1 (if (m : ℤ) % 2 = 0 then (m : ℤ) else m + 1) := by
    rw [kept_total, hq, pyRound_half]
  constructor
  · rw [hkt]
    by_cases h : (m : ℤ) % 2 = 0 <;> simp only [h, if_true, if_false, if_pos, if_neg] <;>
      push_cast <;> omega
  · intro hm
    rw [hkt]
    by_cases h : (m : ℤ) % 2 = 0 <;> simp only [h, if_true, if_false, if_pos, if_neg] <;>
      push_cast <;> omega

/-- A dummy pool entry used for concrete witnesses. -/
def bulletW : Bullet := ⟨"w", 5, "", .WHAT, 0⟩

/-- Witness for C10: pools of sizes 3, 5 and 7 give kept totals 2, 2 and 4
(round-half-to-even), with the `max(1, …)` floor inactive. -/
theorem kept_total_odd_witness :
    kept_total (List.replicate 3 bulletW) = 2 ∧
    kept_total (List.replicate 5 bulletW) = 2 ∧
    kept_total (List.replicate 7 bulletW) = 4 := by
  refine ⟨?_, ?_, ?_⟩
  · have h := (kept_total_odd (List.replicate 3 bulletW) 1 (by decide)).2 (by decide)
    rw [h]; decide
  · have h := (kept_total_odd (List.replicate 5 bulletW) 2 (by decide)).2 (by decide)
    rw [h]; decide
  · have h := (kept_total_odd (List.replicate 7 bulletW) 3 (by decide)).2 (by decide)
    rw [h]; decide

/-! ### Concrete quota evaluations (C2, C8) -/

lemma target_counts_eleven : target_counts 11 WHAC_RATIOS =
    [(.WHAT, 5), (.HOW, 3), (.SURE, 2), (.CYDI, 1)] := by
  have hraw : rawOf 11 WHAC_RATIOS =
      [(.WHAT, 11/2), (.HOW, 297/100), (.SURE, 33/20), (.CYDI, 22/25)] := by
    simp only [rawOf, WHAC_RATIOS, List.map]
    norm_num
  have hfl : floorsOf 11 WHAC_RATIOS =
      [(.WHAT, 5), (.HOW, 2), (.SURE, 1), (.CYDI, 0)] := by
    simp only [floorsOf, hraw, List.map]
    norm_num
  have hfr : fracsOf 11 WHAC_RATIOS =
      [(97/100, .HOW), (22/25, .CYDI), (13/20, .SURE), (1/2, .WHAT)] := by
    simp only [fracsOf, hraw, List.map]
    norm_num [sortDesc, insDesc, ltLex, Cat.strRank, List.foldl]
  have hrem : remainderOf 11 WHAC_RATIOS = 3 := by
    simp only [remainderOf, hfl, List.map, List.sum_cons, List.sum_nil]
    norm_num
  rw [target_counts, hfl, hfr, hrem]
  simp [distribute, bump]

lemma target_counts_one : target_counts 1 WHAC_RATIOS =
    [(.WHAT, 1), (.HOW, 0), (.SURE, 0), (.CYDI, 0)] := by
  have hraw : rawOf 1 WHAC_RATIOS =
      [(.WHAT, 1/2), (.HOW, 27/100), (.SURE, 3/20), (.CYDI, 2/25)] := by
    simp only [rawOf, WHAC_RATIOS, List.map]
    norm_num
  have hfl : floorsOf 1 WHAC_RATIOS =
      [(.WHAT, 0), (.HOW, 0), (.SURE, 0), (.CYDI, 0)] := by
    simp only [floorsOf, hraw, List.map]
    norm_num
  have hfr : fracsOf 1 WHAC_RATIOS =
      [(1/2, .WHAT), (27/100, .HOW), (3/20, .SURE), (2/25, .CYDI)] := by
    simp only [fracsOf, hraw, List.map]
    norm_num [sortDesc, insDesc, ltLex, Cat.strRank, List.foldl]
  have hrem : remainderOf 1 WHAC_RATIOS = 1 := by
    simp only [remainderOf, hfl, List.map, List.sum_cons, List.sum_nil]
    norm_num
  rw [target_counts, hfl, hfr, hrem]
  simp [distribute, bump]

/-- Shorthand for a pool entry in the C2 scenario. -/
def mkB (c : Cat) (i : ℕ) (p : ℤ) : Bullet := ⟨"b", p, "", c, i⟩

/-- The C2 scenario pool: 22 priority>0 entries — 10 WHAT (6 HIGH then
4 MEDIUM), 6 HOW, 4 SURE, 2 CYDI, in form order with per-category indices. -/
def pool22 : List Bullet :=
  [mkB .WHAT 0 5, mkB .WHAT 1 5, mkB .WHAT 2 5, mkB .WHAT 3 5, mkB .WHAT 4 5,
   mkB .WHAT 5 5, mkB .WHAT 6 3, mkB .WHAT 7 3, mkB .WHAT 8 3, mkB .WHAT 9 3,
   mkB .HOW 0 5, mkB .HOW 1 5, mkB .HOW 2 5, mkB .HOW 3 5, mkB .HOW 4 5, mkB .HOW 5 5,
   mkB .SURE 0 3, mkB .SURE 1 3, mkB .SURE 2 3, mkB .SURE 3 3,
   mkB .CYDI 0 5, mkB .CYDI 1 5]

lemma kept_total_pool22 : kept_total pool22 = 11 := by
  have hl : pool22.length = 22 := by decide
  have h2 : ((22 : ℕ) : ℚ) * keep_fraction = 11 := by
    rw [keep_fraction]; norm_num
  rw [kept_total, hl, h2, pyRound]
  norm_num

/-- **C2 counterexample.** On the 22-entry scenario pool, `kept_total` is
indeed `round(22·0.5) = 11`, but `target_counts(11, WHAC_RATIOS)` does NOT
return the caps `{WHAT: 6, HOW: 3, SURE: 2, CYDI: 1}` asserted by the claim
(which would sum to 12 > 11); the WHAT cap is 5. -/
theorem scenario22_cex :
    kept_total pool22 = 11 ∧
    target_counts (kept_total pool22) WHAC_RATIOS ≠
      [(.WHAT, 6), (.HOW, 3), (.SURE, 2), (.CYDI, 1)] := by
  refine ⟨kept_total_pool22, ?_⟩
  rw [kept_total_pool22, target_counts_eleven]
  decide

/-- **C2 amended.** On the 22-entry scenario pool the pipeline computes
`keptTotal = round(22·0.5) = 11`; the Quota Allocator yields caps
`{WHAT: 5, HOW: 3, SURE: 2, CYDI: 1}` (summing to 11); and the WHAT
selection consists of the first 5 HIGH entries in original order — the cap
is reached without touching any MEDIUM entry, but the 6th HIGH entry is
left out. -/
theorem scenario22_amended :
    kept_total pool22 = 11 ∧
    target_counts (kept_total pool22) WHAC_RATIOS =
      [(.WHAT, 5), (.HOW, 3), (.SURE, 2), (.CYDI, 1)] ∧
    select pool22 5 .WHAT =
      [mkB .WHAT 0 5, mkB .WHAT 1 5, mkB .WHAT 2 5, mkB .WHAT 3 5, mkB .WHAT 4 5] ∧
    ∀ b ∈ select pool22 5 .WHAT, 5 ≤ b.priority := by
  refine ⟨kept_total_pool22, ?_, ?_, ?_⟩
  · rw [kept_total_pool22, target_counts_eleven]
  · decide
  · decide

/-- **C8.** With an empty filtered pool the selection stage is total and
yields: `keptTotal = max(1, round(0·0.5)) = 1`, category caps summing to
`1 ≤ 1`, and an empty selection for every category. -/
theorem empty_pool_build :
    kept_total ([] : List Bullet) = 1 ∧
    ((target_counts (kept_total ([] : List Bullet)) WHAC_RATIOS).map Prod.snd).sum ≤ 1 ∧
    ∀ p ∈ build_selection ([] : List Bullet), p.2 = [] := by
  have h1 : kept_total ([] : List Bullet) = 1 := by
    have h0 : ((List.length ([] : List Bullet) : ℕ) : ℚ) * keep_fraction = 0 := by
      simp [keep_fraction]
    rw [kept_total, h0, pyRound]
    norm_num
  refine ⟨h1, ?_, ?_⟩
  · rw [h1, target_counts_one]
    decide
  · intro p hp
    simp only [build_selection, h1, target_counts_one, List.map, List.mem_cons,
      List.not_mem_nil, or_false] at hp
    rcases hp with rfl | rfl | rfl | rfl <;> decide

/-! ### Bullet Selector (C3) -/

lemma insIdx_perm (x : Bullet) (l : List Bullet) : List.Perm (insIdx x l) (x :: l) := by
  induction l with
  | nil => exact List.Perm.refl _
  | cons y ys ih =>
    simp only [insIdx]
    by_cases h : x.idx < y.idx
    · rw [if_pos h]
    · rw [if_neg h]
      exact (ih.cons y).trans (List.Perm.swap x y ys)

lemma foldl_insIdx_perm (l : List Bullet) :
    ∀ acc : List Bullet, List.Perm (l.foldl (fun acc x => insIdx x acc) acc) (l ++ acc) := by
  induction l with
  | nil => intro acc; simp
  | cons x l ih =>
    intro acc
    simp only [List.foldl_cons, List.cons_append]
    exact ((ih (insIdx x acc)).trans
      (List.Perm.append_left l (insIdx_perm x acc))).trans List.perm_middle

lemma sortByIdx_perm (l : List Bullet) : List.Perm (sortByIdx l) l := by
  simpa using foldl_insIdx_perm l []

lemma insIdx_pairwise {x : Bullet} {l : List Bullet}
    (hl : l.Pairwise (fun a b => a.idx ≤ b.idx)) :
    (insIdx x l).Pairwise (fun a b => a.idx ≤ b.idx) := by
  induction l with
  | nil => simp [insIdx]
  | cons y ys ih =>
    rcases List.pairwise_cons.mp hl with ⟨hy, hys⟩
    simp only [insIdx]
    by_cases h : x.idx < y.idx
    · rw [if_pos h]
      refine List.Pairwise.cons ?_ hl
      intro z hz
      rcases List.mem_cons.mp hz with rfl | hz'
      · exact le_of_lt h
      · exact le_trans (le_of_lt h) (hy z hz')
    · rw [if_neg h]
      refine List.Pairwise.cons ?_ (ih hys)
      intro z hz
      have hz2 := (insIdx_perm x ys).mem_iff.mp hz
      rcases List.mem_cons.mp hz2 with rfl | hz'
      · exact Nat.le_of_not_lt h
      · exact hy z hz'

lemma foldl_insIdx_pairwise (l : List Bullet) :
    ∀ acc : List Bullet, acc.Pairwise (fun a b => a.idx ≤ b.idx) →
      (l.foldl (fun acc x => insIdx x acc) acc).Pairwise (fun a b => a.idx ≤ b.idx) := by
  induction l with
  | nil => intro acc hacc; simpa using hacc
  | cons x l ih =>
    intro acc hacc
    simp only [List.foldl_cons]
    exact ih (insIdx x acc) (insIdx_pairwise hacc)

lemma sortByIdx_pairwise (l : List Bullet) :
    (sortByIdx l).Pairwise (fun a b => a.idx ≤ b.idx) :=
  foldl_insIdx_pairwise l [] (List.Pairwise.nil)

lemma mem_tierH {pool : List Bullet} {c : Cat} {b : Bullet} (hb : b ∈ tierH pool c) :
    b.category = c ∧ 5 ≤ b.priority := by
  have h1 := (sortByIdx_perm _).mem_iff.mp hb
  have h2 := List.of_mem_filter h1
  simpa using h2

lemma mem_tierM {pool : List Bullet} {c : Cat} {b : Bullet} (hb : b ∈ tierM pool c) :
    b.category = c ∧ ¬ 5 ≤ b.priority := by
  have h1 := (sortByIdx_perm _).mem_iff.mp hb
  have h2 := List.of_mem_filter h1
  simpa using h2

lemma tier_split_len (pool : List Bullet) (c : Cat) :
    (tierH pool c).length + (tierM pool c).length
      = (pool.filter (fun b => b.category = c)).length := by
  rw [tierH, tierM, (sortByIdx_perm _).length_eq, (sortByIdx_perm _).length_eq]
  induction pool with
  | nil => simp
  | cons b l ih =>
    simp only [List.filter_cons]
    by_cases hc : b.category = c
    · by_cases hp : 5 ≤ b.priority
      · rw [if_pos (by simp [hc, hp]), if_neg (by simp [hc, hp]), if_pos (by simp [hc])]
        simp only [List.length_cons]
        omega
      · rw [if_neg (by simp [hc, hp]), if_pos (by simp [hc, hp]), if_pos (by simp [hc])]
        simp only [List.length_cons]
        omega
    · rw [if_neg (by simp [hc]), if_neg (by simp [hc]), if_neg (by simp [hc])]
      omega

/-- **C3.** For every pool and cap, the Bullet Selector's output for a
category `c` has length exactly `min(cap, number of pool entries of
category c)`; it splits as a HIGH-tier block followed by a MEDIUM-tier
block; and within each tier the selected entries are in original input
order (ascending original index, never re-sorted by content). -/
theorem select_spec (pool : List Bullet) (cap : ℕ) (c : Cat) :
    (select pool cap c).length
      = min cap (pool.filter (fun b => b.category = c)).length ∧
    ∃ hs ms, select pool cap c = hs ++ ms ∧
      (∀ b ∈ hs, 5 ≤ b.priority) ∧ (∀ b ∈ ms, b.priority < 5) ∧
      hs.Pairwise (fun a b => a.idx ≤ b.idx) ∧
      ms.Pairwise (fun a b => a.idx ≤ b.idx) := by
  have hsplit := tier_split_len pool c
  constructor
  · rw [select]
    by_cases h : ((tierH pool c).take cap).length < cap
    · rw [if_pos h]
      rw [List.length_take] at h
      rw [List.length_append, List.length_take, List.length_take]
      omega
    · rw [if_neg h]
      rw [List.length_take] at h ⊢
      omega
  · rw [select]
    by_cases h : ((tierH pool c).take cap).length < cap
    · rw [if_pos h]
      refine ⟨(tierH pool c).take cap,
        (tierM pool c).take (cap - ((tierH pool c).take cap).length),
        rfl, ?_, ?_, ?_, ?_⟩
      · intro b hb
        exact (mem_tierH (List.mem_of_mem_take hb)).2
      · intro b hb
        exact not_le.mp (mem_tierM (List.mem_of_mem_take hb)).2
      · exact List.Pairwise.sublist (List.take_sublist _ _) (sortByIdx_pairwise _)
      · exact List.Pairwise.sublist (List.take_sublist _ _) (sortByIdx_pairwise _)
    · rw [if_neg h]
      refine ⟨(tierH pool c).take cap, [], (List.append_nil _).symm, ?_, ?_, ?_, ?_⟩
      · intro b hb
        exact (mem_tierH (List.mem_of_mem_take hb)).2
      · intro b hb
        exact absurd hb (List.not_mem_nil b)
      · exact List.Pairwise.sublist (List.take_sublist _ _) (sortByIdx_pairwise _)
      · exact List.Pairwise.nil

/-! ### Quota Allocator: general machinery (C1, C9) -/

/-- The keys bumped by the distribution loop starting at index `i` with `r`
iterations left: `ord[i % len(ord)], ord[(i+1) % len(ord)], …`. -/
def bumpKeys (ord : List Cat) : ℕ → ℕ → List Cat
  | _, 0 => []
  | i, (r + 1) => ord.getD (i % ord.length) .WHAT :: bumpKeys ord (i + 1) r

/-- Folding `bump` over a list of keys. -/
def applyBumps (floors : List (Cat × ℤ)) (ks : List Cat) : List (Cat × ℤ) :=
  ks.foldl bump floors

lemma distribute_eq_applyBumps (ord : List Cat) :
    ∀ (r i : ℕ) (floors : List (Cat × ℤ)),
      distribute floors ord i r = applyBumps floors (bumpKeys ord i r) := by
  intro r
  induction r with
  | zero => intro i floors; rfl
  | succ r ih =>
    intro i floors
    simp only [distribute, bumpKeys, applyBumps, List.foldl_cons]
    exact ih (i + 1) (bump floors (ord.getD (i % ord.length) .WHAT))

lemma applyBumps_map (ks : List Cat) :
    ∀ floors : List (Cat × ℤ),
      applyBumps floors ks
        = floors.map (fun p => (p.1, p.2 + ((ks.count p.1 : ℕ) : ℤ))) := by
  induction ks with
  | nil => intro floors; simp [applyBumps]
  | cons k ks ih =>
    intro floors
    simp only [applyBumps, List.foldl_cons] at *
    rw [ih (bump floors k), bump, List.map_map]
    congr 1
    funext p
    have hc : (k :: ks).count p.1 = ks.count p.1 + if p.1 = k then 1 else 0 := by
      rw [List.count_cons]
      by_cases h : p.1 = k
      · rw [if_pos h, if_pos (by simp [h])]
      · rw [if_neg h, if_neg (by simp only [beq_iff_eq]; exact fun hk => h hk.symm)]
    simp only [Function.comp_apply]
    by_cases h : p.1 = k
    · rw [if_pos h]
      refine Prod.ext rfl ?_
      rw [hc, if_pos h]
      push_cast
      ring
    · rw [if_neg h]
      refine Prod.ext rfl ?_
      rw [hc, if_neg h]
      push_cast
      ring

lemma sum_map_add (l : List (Cat × ℤ)) (f g : Cat × ℤ → ℤ) :
    (l.map (fun p => f p + g p)).sum = (l.map f).sum + (l.map g).sum := by
  induction l with
  | nil => simp
  | cons p l ih =>
    simp only [List.map_cons, List.sum_cons, ih]
    ring

lemma sum_indicator (l : List (Cat × ℤ)) (k : Cat) :
    (l.map (fun p => if p.1 = k then (1 : ℤ) else 0)).sum
      = (((l.map Prod.fst).count k : ℕ) : ℤ) := by
  induction l with
  | nil => simp
  | cons p l ih =>
    simp only [List.map_cons, List.sum_cons, ih]
    rw [List.count_cons]
    by_cases h : p.1 = k
    · rw [if_pos h, if_pos (by simp [h])]
      push_cast
      ring
    · have h2 : ¬ ((p.1 == k) = true) := by
        simp only [beq_iff_eq]
        exact h
      rw [if_neg h, if_neg h2]
      push_cast
      ring

lemma sum_map_one (l : List Cat) : (l.map (fun _ => (1 : ℤ))).sum = l.length := by
  induction l with
  | nil => simp
  | cons k l ih =>
    simp only [List.map_cons, List.sum_cons, ih, List.length_cons]
    push_cast
    ring

lemma count_double (ks : List Cat) (floors : List (Cat × ℤ)) :
    (floors.map (fun p => ((ks.count p.1 : ℕ) : ℤ))).sum
      = (ks.map (fun k => (((floors.map Prod.fst).count k : ℕ) : ℤ))).sum := by
  induction ks with
  | nil => simp
  | cons k ks ih =>
    simp only [List.map_cons, List.sum_cons]
    have hstep : ∀ p ∈ floors, (((k :: ks).count p.1 : ℕ) : ℤ)
        = ((ks.count p.1 : ℕ) : ℤ) + (if p.1 = k then (1 : ℤ) else 0) := by
      intro p _
      rw [List.count_cons]
      by_cases h : p.1 = k
      · rw [if_pos h, if_pos (by simp [h])]
        push_cast
        ring
      · rw [if_neg h, if_neg (by simp only [beq_iff_eq]; exact fun hk => h hk.symm)]
        push_cast
        ring
    rw [List.map_congr_left hstep, sum_map_add, ih, sum_indicator]
    ring

lemma insDesc_perm (x : ℚ × Cat) (l : List (ℚ × Cat)) :
    List.Perm (insDesc x l) (x :: l) := by
  induction l with
  | nil => exact List.Perm.refl _
  | cons y ys ih =>
    simp only [insDesc]
    by_cases h : ltLex y x
    · rw [if_pos h]
    · rw [if_neg h]
      exact (ih.cons y).trans (List.Perm.swap x y ys)

lemma foldl_insDesc_perm (l : List (ℚ × Cat)) :
    ∀ acc : List (ℚ × Cat),
      List.Perm (l.foldl (fun acc x => insDesc x acc) acc) (l ++ acc) := by
  induction l with
  | nil => intro acc; simp
  | cons x l ih =>
    intro acc
    simp only [List.foldl_cons, List.cons_append]
    exact ((ih (insDesc x acc)).trans
      (List.Perm.append_left l (insDesc_perm x acc))).trans List.perm_middle

lemma sortDesc_perm (l : List (ℚ × Cat)) : List.Perm (sortDesc l) l := by
  simpa using foldl_insDesc_perm l []

lemma floorsOf_eq (total : ℤ) (ratios : List (Cat × ℚ)) :
    floorsOf total ratios = ratios.map (fun q => (q.1, ⌊(total : ℚ) * q.2⌋)) := by
  simp [floorsOf, rawOf, List.map_map, Function.comp]

lemma floors_keys (total : ℤ) (ratios : List (Cat × ℚ)) :
    (floorsOf total ratios).map Prod.fst = ratios.map Prod.fst := by
  simp [floorsOf, rawOf, List.map_map, Function.comp]

lemma fracs_keys_perm (total : ℤ) (ratios : List (Cat × ℚ)) :
    List.Perm ((fracsOf total ratios).map Prod.snd) (ratios.map Prod.fst) := by
  have h1 := (sortDesc_perm
    ((rawOf total ratios).map (fun p => (p.2 - (⌊p.2⌋ : ℚ), p.1)))).map Prod.snd
  rw [fracsOf]
  refine h1.trans ?_
  simp only [rawOf, List.map_map]
  exact List.Perm.refl _

lemma bumpKeys_length (ord : List Cat) : ∀ (r i : ℕ), (bumpKeys ord i r).length = r := by
  intro r
  induction r with
  | zero => intro i; rfl
  | succ r ih => intro i; simp [bumpKeys, ih]

lemma bumpKeys_mem (ord : List Cat) (hord : ord ≠ []) :
    ∀ (r i : ℕ), ∀ k ∈ bumpKeys ord i r, k ∈ ord := by
  intro r
  induction r with
  | zero => intro i k hk; simp [bumpKeys] at hk
  | succ r ih =>
    intro i k hk
    simp only [bumpKeys, List.mem_cons] at hk
    rcases hk with rfl | hk
    · have hlen : i % ord.length < ord.length :=
        Nat.mod_lt _ (List.length_pos.mpr hord)
      rw [List.getD_eq_getElem _ _ hlen]
      exact List.getElem_mem _
    · exact ih (i + 1) k hk

lemma bumpKeys_eq_take (ord : List Cat) :
    ∀ (r i : ℕ), i + r ≤ ord.length → bumpKeys ord i r = (ord.drop i).take r := by
  intro r
  induction r with
  | zero => intro i h; simp [bumpKeys]
  | succ r ih =>
    intro i h
    have hi : i < ord.length := by omega
    simp only [bumpKeys]
    rw [Nat.mod_eq_of_lt hi, List.getD_eq_getElem _ _ hi,
      List.drop_eq_getElem_cons hi, List.take_succ_cons, ih (i + 1) (by omega)]

/-- Core sum lemma: whenever the ratio list is non-empty with distinct keys
and the floors sum to at most the total, the distributed caps sum exactly
to the total. -/
lemma target_counts_sum (total : ℤ) (ratios : List (Cat × ℚ))
    (hne : ratios ≠ [])
    (hnd : (ratios.map Prod.fst).Nodup)
    (hfl : ((floorsOf total ratios).map Prod.snd).sum ≤ total) :
    ((target_counts total ratios).map Prod.snd).sum = total := by
  have hrem : 0 ≤ remainderOf total ratios := by
    rw [remainderOf]; omega
  have hordne : ((fracsOf total ratios).map Prod.snd) ≠ [] := by
    intro h
    have := (fracs_keys_perm total ratios).length_eq
    rw [h] at this
    simp only [List.length_nil, List.length_map] at this
    exact hne (List.length_eq_zero.mp this.symm)
  rw [target_counts, distribute_eq_applyBumps, applyBumps_map, List.map_map]
  have h1 : (Prod.snd ∘ fun p : Cat × ℤ =>
      (p.1, p.2 + ((List.count p.1 (bumpKeys ((fracsOf total ratios).map Prod.snd) 0
        (remainderOf total ratios).toNat) : ℕ) : ℤ)))
      = fun p : Cat × ℤ => p.2 + ((List.count p.1 (bumpKeys ((fracsOf total ratios).map Prod.snd) 0
        (remainderOf total ratios).toNat) : ℕ) : ℤ) := rfl
  rw [h1, sum_map_add, count_double]
  have hone : ∀ k ∈ bumpKeys ((fracsOf total ratios).map Prod.snd) 0
      (remainderOf total ratios).toNat,
      (((((floorsOf total ratios).map Prod.fst).count k : ℕ)) : ℤ) = (1 : ℤ) := by
    intro k hk
    have hmem : k ∈ (fracsOf total ratios).map Prod.snd :=
      bumpKeys_mem _ hordne _ _ k hk
    have hmem2 : k ∈ ratios.map Prod.fst :=
      (fracs_keys_perm total ratios).mem_iff.mp hmem
    rw [floors_keys, List.count_eq_one_of_mem hnd hmem2]
    simp
  rw [List.map_congr_left hone, sum_map_one, bumpKeys_length]
  rw [Int.toNat_of_nonneg hrem, remainderOf]
  ring

/-- **C9.** `target_counts` distributes the rounding remainder round-robin
over the fraction-sorted key list (index `i mod number of categories`), so
its caps sum exactly to the total `T` for any non-empty mapping of distinct
categories to non-negative ratios whose floors sum to at most `T` — not
only for ratios summing to 1.0, and even when the remainder exceeds the
number of categories. -/
theorem target_counts_sum_roundrobin (total : ℤ) (ratios : List (Cat × ℚ))
    (hne : ratios ≠ []) (hnd : (ratios.map Prod.fst).Nodup)
    (_hpos : ∀ p ∈ ratios, 0 ≤ p.2)
    (hfl : (ratios.map (fun q => ⌊(total : ℚ) * q.2⌋)).sum ≤ total) :
    ((target_counts total ratios).map Prod.snd).sum = total := by
  apply target_counts_sum total ratios hne hnd
  rw [floorsOf_eq, List.map_map]
  exact hfl

/-- Witness for C9: ratios `{WHAT: 0.1, HOW: 0.1}` (summing to 0.2, not 1)
with `T = 10`: the floors sum to 2, the remainder 8 exceeds the 2
categories, and the caps still sum to exactly 10. -/
theorem target_counts_sum_roundrobin_witness :
    (([(Cat.WHAT, (1:ℚ)/10), (Cat.HOW, (1:ℚ)/10)] : List (Cat × ℚ)) ≠ [] ∧
      (([(Cat.WHAT, (1:ℚ)/10), (Cat.HOW, (1:ℚ)/10)].map Prod.fst).Nodup) ∧
      (∀ p ∈ ([(Cat.WHAT, (1:ℚ)/10), (Cat.HOW, (1:ℚ)/10)] : List (Cat × ℚ)), 0 ≤ p.2) ∧
      (([(Cat.WHAT, (1:ℚ)/10), (Cat.HOW, (1:ℚ)/10)].map
        (fun q => ⌊((10 : ℤ) : ℚ) * q.2⌋)).sum ≤ 10)) ∧
    ((target_counts 10 [(Cat.WHAT, (1:ℚ)/10), (Cat.HOW, (1:ℚ)/10)]).map Prod.snd).sum
      = 10 := by
  have h3 : ∀ p ∈ ([(Cat.WHAT, (1:ℚ)/10), (Cat.HOW, (1:ℚ)/10)] : List (Cat × ℚ)),
      0 ≤ p.2 := by
    intro p hp
    fin_cases hp <;> norm_num
  have h4 : (([(Cat.WHAT, (1:ℚ)/10), (Cat.HOW, (1:ℚ)/10)].map
      (fun q => ⌊((10 : ℤ) : ℚ) * q.2⌋)).sum ≤ 10) := by
    simp only [List.map_cons, List.map_nil, List.sum_cons, List.sum_nil]
    norm_num
  exact ⟨⟨by simp, by decide, h3, h4⟩,
    target_counts_sum_roundrobin 10 _ (by simp) (by decide) h3 h4⟩

lemma sum_map_sub_one (l : List (Cat × ℚ)) (f : Cat × ℚ → ℚ) :
    (l.map (fun x => f x - 1)).sum = (l.map f).sum - l.length := by
  induction l with
  | nil => simp
  | cons x l ih =>
    simp only [List.map_cons, List.sum_cons, ih, List.length_cons]
    push_cast
    ring

/-- **C1.** For every total `T ≥ 0` and every mapping of distinct categories
to non-negative ratios summing to 1, `target_counts` returns caps that are
non-negative, sum exactly to `T`, and equal `⌊T·ratio[c]⌋` or
`⌊T·ratio[c]⌋ + 1` for the matching category. -/
theorem target_counts_quota (total : ℤ) (ratios : List (Cat × ℚ))
    (hT : 0 ≤ total) (hnd : (ratios.map Prod.fst).Nodup)
    (hpos : ∀ p ∈ ratios, 0 ≤ p.2)
    (hsum : (ratios.map Prod.snd).sum = 1) :
    ((target_counts total ratios).map Prod.snd).sum = total ∧
    ∀ p ∈ target_counts total ratios, 0 ≤ p.2 ∧
      ∃ q ∈ ratios, p.1 = q.1 ∧
        (p.2 = ⌊(total : ℚ) * q.2⌋ ∨ p.2 = ⌊(total : ℚ) * q.2⌋ + 1) := by
  have hne : ratios ≠ [] := by
    intro h
    rw [h] at hsum
    simp at hsum
  have hcastsum : ((((floorsOf total ratios).map Prod.snd).sum : ℤ) : ℚ)
      = (ratios.map (fun q => ((⌊(total : ℚ) * q.2⌋ : ℤ) : ℚ))).sum := by
    rw [floorsOf_eq, List.map_map, Int.cast_list_sum, List.map_map]
    rfl
  have hsum2 : (ratios.map (fun q : Cat × ℚ => q.2)).sum = 1 := hsum
  have hraw_sum : (ratios.map (fun q : Cat × ℚ => (total : ℚ) * q.2)).sum
      = (total : ℚ) := by
    rw [List.sum_map_mul_left, hsum2, mul_one]
  have hfl_q : (ratios.map (fun q => ((⌊(total : ℚ) * q.2⌋ : ℤ) : ℚ))).sum
      ≤ (ratios.map (fun q : Cat × ℚ => (total : ℚ) * q.2)).sum :=
    List.sum_le_sum (fun q _ => Int.floor_le _)
  have hfl : ((floorsOf total ratios).map Prod.snd).sum ≤ total := by
    have h2 := hfl_q.trans_eq hraw_sum
    rw [← hcastsum] at h2
    exact_mod_cast h2
  refine ⟨target_counts_sum total ratios hne hnd hfl, ?_⟩
  have hlt_q : (total : ℚ) - ratios.length
      < ((((floorsOf total ratios).map Prod.snd).sum : ℤ) : ℚ) := by
    rw [hcastsum]
    obtain ⟨x, hx⟩ := List.exists_mem_of_ne_nil ratios hne
    have hsumlt := List.sum_lt_sum (fun q : Cat × ℚ => (total : ℚ) * q.2 - 1)
      (fun q => ((⌊(total : ℚ) * q.2⌋ : ℤ) : ℚ))
      (fun q _ => le_of_lt (Int.sub_one_lt_floor _))
      ⟨x, hx, Int.sub_one_lt_floor _⟩
    have heq : (ratios.map (fun q : Cat × ℚ => (total : ℚ) * q.2 - 1)).sum
        = (total : ℚ) - ratios.length := by
      rw [sum_map_sub_one, hraw_sum]
    rw [heq] at hsumlt
    exact hsumlt
  have hremlt : remainderOf total ratios < ratios.length := by
    rw [remainderOf]
    have h2 : (total : ℚ) - ((((floorsOf total ratios).map Prod.snd).sum : ℤ) : ℚ)
        < ratios.length := by linarith
    exact_mod_cast h2
  have hordlen : ((fracsOf total ratios).map Prod.snd).length = ratios.length := by
    have := (fracs_keys_perm total ratios).length_eq
    simpa using this
  have hrem0 : 0 ≤ remainderOf total ratios := by
    rw [remainderOf]
    omega
  have hks : bumpKeys ((fracsOf total ratios).map Prod.snd) 0
      (remainderOf total ratios).toNat
      = ((fracsOf total ratios).map Prod.snd).take (remainderOf total ratios).toNat := by
    rw [bumpKeys_eq_take _ _ 0 (by omega), List.drop_zero]
  intro p hp
  rw [target_counts, distribute_eq_applyBumps, applyBumps_map, floorsOf_eq] at hp
  rcases List.mem_map.mp hp with ⟨p0, hp00, rfl⟩
  rcases List.mem_map.mp hp00 with ⟨q, hq, rfl⟩
  dsimp only
  have hcount : List.count q.1 (bumpKeys ((fracsOf total ratios).map Prod.snd) 0
      (remainderOf total ratios).toNat) ≤ 1 := by
    rw [hks]
    calc List.count q.1 (((fracsOf total ratios).map Prod.snd).take
          (remainderOf total ratios).toNat)
        ≤ List.count q.1 ((fracsOf total ratios).map Prod.snd) :=
          (List.take_sublist _ _).count_le _
      _ = List.count q.1 (ratios.map Prod.fst) :=
          (fracs_keys_perm total ratios).count_eq _
      _ ≤ 1 := List.nodup_iff_count_le_one.mp hnd _
  have hfloor0 : 0 ≤ ⌊(total : ℚ) * q.2⌋ :=
    Int.floor_nonneg.mpr (mul_nonneg (by exact_mod_cast hT) (hpos q hq))
  constructor
  · omega
  · refine ⟨q, hq, rfl, ?_⟩
    have h01 : List.count q.1 (bumpKeys ((fracsOf total ratios).map Prod.snd) 0
        (remainderOf total ratios).toNat) = 0 ∨
        List.count q.1 (bumpKeys ((fracsOf total ratios).map Prod.snd) 0
        (remainderOf total ratios).toNat) = 1 := by omega
    rcases h01 with h | h
    · left
      rw [h]
      simp
    · right
      rw [h]
      simp

/-- Witness for C1 at `T = 11` with the program's WHAC ratios. -/
theorem target_counts_quota_witness :
    ((0 : ℤ) ≤ 11 ∧ ((WHAC_RATIOS.map Prod.fst).Nodup) ∧
      (∀ p ∈ WHAC_RATIOS, 0 ≤ p.2) ∧ (WHAC_RATIOS.map Prod.snd).sum = 1) ∧
    ((target_counts 11 WHAC_RATIOS).map Prod.snd).sum = 11 := by
  have h3 : ∀ p ∈ WHAC_RATIOS, 0 ≤ p.2 := by
    intro p hp
    fin_cases hp <;> norm_num
  have h4 : (WHAC_RATIOS.map Prod.snd).sum = 1 := by
    simp only [WHAC_RATIOS, List.map_cons, List.map_nil, List.sum_cons, List.sum_nil]
    norm_num
  exact ⟨⟨by norm_num, by decide, h3, h4⟩,
    (target_counts_quota 11 WHAC_RATIOS (by norm_num) (by decide) h3 h4).1⟩

/-! ### Text Wrapper machinery (C6, C7) -/

lemma pySplitAux_sound : ∀ (s cur : Str),
    (∀ c ∈ cur, c.isWhitespace = false) →
    ∀ w ∈ pySplitAux s cur, w ≠ [] ∧ ∀ c ∈ w, c.isWhitespace = false := by
  intro s
  induction s with
  | nil =>
    intro cur hcur w hw
    simp only [pySplitAux] at hw
    by_cases h : cur = []
    · rw [if_pos h] at hw
      simp at hw
    · rw [if_neg h] at hw
      rcases List.mem_singleton.mp hw with rfl
      exact ⟨h, hcur⟩
  | cons c s ih =>
    intro cur hcur w hw
    simp only [pySplitAux] at hw
    by_cases hws : c.isWhitespace
    · rw [if_pos hws] at hw
      by_cases h : cur = []
      · rw [if_pos h] at hw
        exact ih [] (by simp) w hw
      · rw [if_neg h] at hw
        rcases List.mem_cons.mp hw with rfl | hw2
        · exact ⟨h, hcur⟩
        · exact ih [] (by simp) w hw2
    · rw [if_neg hws] at hw
      refine ih (cur ++ [c]) ?_ w hw
      intro d hd
      rcases List.mem_append.mp hd with hd | hd
      · exact hcur d hd
      · rcases List.mem_singleton.mp hd with rfl
        exact Bool.eq_false_iff.mpr hws

lemma pySplit_sound (s : Str) :
    ∀ w ∈ pySplit s, w ≠ [] ∧ ∀ c ∈ w, c.isWhitespace = false :=
  pySplitAux_sound s [] (by simp)

lemma pySplitAux_nonws : ∀ (w t cur : Str),
    (∀ c ∈ w, c.isWhitespace = false) →
    pySplitAux (w ++ t) cur = pySplitAux t (cur ++ w) := by
  intro w
  induction w with
  | nil => intro t cur _; simp
  | cons c w ih =>
    intro t cur h
    have hc : ¬ (c.isWhitespace = true) := by
      rw [h c (List.mem_cons_self c w)]
      simp
    simp only [List.cons_append, pySplitAux, if_neg hc]
    rw [show cur ++ c :: w = (cur ++ [c]) ++ w by simp]
    exact ih t (cur ++ [c]) (fun d hd => h d (List.mem_cons_of_mem c hd))

lemma pySplit_single (w : Str) (hne : w ≠ [])
    (hws : ∀ c ∈ w, c.isWhitespace = false) : pySplit w = [w] := by
  have h1 : pySplit w = pySplitAux (w ++ []) [] := by
    rw [List.append_nil]; rfl
  rw [h1, pySplitAux_nonws w [] [] hws]
  simp only [List.nil_append, pySplitAux]
  rw [if_neg hne]

lemma joinSp_append_word (g : List Str) (w : Str) (hg : g ≠ []) :
    joinSp (g ++ [w]) = joinSp g ++ ' ' :: w := by
  induction g with
  | nil => exact absurd rfl hg
  | cons g0 g' ih =>
    cases g' with
    | nil => rfl
    | cons g1 g'' =>
      have h2 : joinSp ((g1 :: g'') ++ [w]) = joinSp (g1 :: g'') ++ ' ' :: w :=
        ih (by simp)
      calc joinSp ((g0 :: g1 :: g'') ++ [w])
          = g0 ++ ' ' :: joinSp ((g1 :: g'') ++ [w]) := rfl
        _ = g0 ++ ' ' :: (joinSp (g1 :: g'') ++ ' ' :: w) := by rw [h2]
        _ = (g0 ++ ' ' :: joinSp (g1 :: g'')) ++ ' ' :: w := by
              simp [List.append_assoc]
        _ = joinSp (g0 :: g1 :: g'') ++ ' ' :: w := rfl

lemma joinSp_append (A B : List Str) (hA : A ≠ []) (hB : B ≠ []) :
    joinSp (A ++ B) = joinSp A ++ ' ' :: joinSp B := by
  induction A with
  | nil => exact absurd rfl hA
  | cons a A' ih =>
    cases A' with
    | nil =>
      cases B with
      | nil => exact absurd rfl hB
      | cons b B' => rfl
    | cons a1 A'' =>
      have h2 : joinSp ((a1 :: A'') ++ B) = joinSp (a1 :: A'') ++ ' ' :: joinSp B :=
        ih (by simp)
      calc joinSp ((a :: a1 :: A'') ++ B)
          = a ++ ' ' :: joinSp ((a1 :: A'') ++ B) := rfl
        _ = a ++ ' ' :: (joinSp (a1 :: A'') ++ ' ' :: joinSp B) := by rw [h2]
        _ = (a ++ ' ' :: joinSp (a1 :: A'')) ++ ' ' :: joinSp B := by
              simp [List.append_assoc]
        _ = joinSp (a :: a1 :: A'') ++ ' ' :: joinSp B := rfl

lemma flatten_ne_nil (G : List (List Str)) (hne : G ≠ [])
    (hG : ∀ g ∈ G, g ≠ []) : G.flatten ≠ [] := by
  cases G with
  | nil => exact absurd rfl hne
  | cons g G' =>
    simp only [List.flatten_cons]
    intro h
    rcases List.append_eq_nil.mp h with ⟨h1, _⟩
    exact hG g (List.mem_cons_self g G') h1

lemma joinSp_flatten (G : List (List Str)) (hG : ∀ g ∈ G, g ≠ []) :
    joinSp (G.map joinSp) = joinSp G.flatten := by
  induction G with
  | nil => rfl
  | cons g G' ih =>
    cases hG' : G' with
    | nil => simp [joinSp]
    | cons g1 G'' =>
      rw [← hG']
      have hG'ne : G' ≠ [] := by rw [hG']; simp
      have hGmem : ∀ x ∈ G', x ≠ [] := fun x hx => hG x (List.mem_cons_of_mem g hx)
      have hmapne : G'.map joinSp ≠ [] := by
        rw [hG']; simp
      have hstep : joinSp (joinSp g :: G'.map joinSp)
          = joinSp g ++ ' ' :: joinSp (G'.map joinSp) := by
        rw [hG']
        simp only [List.map_cons, joinSp]
      simp only [List.map_cons, List.flatten_cons]
      rw [hstep, ih hGmem,
        joinSp_append g G'.flatten (hG g (List.mem_cons_self g G'))
          (flatten_ne_nil G' hG'ne hGmem)]

lemma pySplit_joinSp : ∀ (ws : List Str),
    (∀ w ∈ ws, w ≠ [] ∧ ∀ c ∈ w, c.isWhitespace = false) →
    pySplit (joinSp ws) = ws := by
  intro ws
  induction ws with
  | nil => intro _; rfl
  | cons w ws' ih =>
    intro h
    cases ws' with
    | nil =>
      simp only [joinSp]
      exact pySplit_single w (h w (by simp)).1 (h w (by simp)).2
    | cons v ws'' =>
      simp only [joinSp]
      have hw := h w (List.mem_cons_self w (v :: ws''))
      have h1 : pySplit (w ++ ' ' :: joinSp (v :: ws''))
          = pySplitAux (' ' :: joinSp (v :: ws'')) w := by
        rw [pySplit, pySplitAux_nonws w _ [] hw.2]
        rfl
      rw [h1]
      simp only [pySplitAux]
      rw [if_pos (by decide), if_neg hw.1]
      have := ih (fun x hx => h x (List.mem_cons_of_mem w hx))
      rw [pySplit] at this
      rw [this]

lemma wrap_fold_c6 (m : ℕ) (ws : List Str) :
    ∀ (rem : List Str) (acc : List Str × Str),
      (∀ w ∈ rem, w ∈ ws) →
      (∀ l ∈ acc.1, m < l.length → l ∈ ws) →
      (m < acc.2.length → acc.2 ∈ ws) →
      (∀ l ∈ (rem.foldl (wrapStep m) acc).1, m < l.length → l ∈ ws) ∧
      (m < (rem.foldl (wrapStep m) acc).2.length →
        (rem.foldl (wrapStep m) acc).2 ∈ ws) := by
  intro rem
  induction rem with
  | nil => intro acc _ h1 h2; exact ⟨h1, h2⟩
  | cons w rem ih =>
    intro acc hrem h1 h2
    simp only [List.foldl_cons]
    refine ih (wrapStep m acc w) (fun x hx => hrem x (List.mem_cons_of_mem w hx)) ?_ ?_
    · rw [wrapStep]
      by_cases hfit : acc.2.length + 1 + w.length ≤ m
      · rw [if_pos hfit]
        exact h1
      · rw [if_neg hfit]
        intro l hl hlong
        rcases List.mem_append.mp hl with hl | hl
        · exact h1 l hl hlong
        · rcases List.mem_singleton.mp hl with rfl
          exact h2 hlong
    · rw [wrapStep]
      by_cases hfit : acc.2.length + 1 + w.length ≤ m
      · rw [if_pos hfit]
        intro hlong
        exfalso
        have hlen : (acc.2 ++ ' ' :: w).length = acc.2.length + 1 + w.length := by
          simp [List.length_append]
          omega
        have : m < acc.2.length + 1 + w.length := by
          rw [← hlen]
          exact hlong
        omega
      · rw [if_neg hfit]
        intro _
        exact hrem w (List.mem_cons_self w rem)

/-- **C6.** Every line produced by `wrap_chars` that exceeds `maxChars` is a
single word of the original text standing alone on its line (re-splitting
that line yields exactly one word, the line itself); contrapositively,
every line containing more than one word has length at most `maxChars`. -/
theorem wrap_chars_overlong (text : Str) (m : ℕ) :
    ∀ line ∈ wrap_chars text m, m < line.length →
      line ∈ pySplit text ∧ pySplit line = [line] := by
  intro line hline hlong
  have hmem : line ∈ pySplit text := by
    cases hsp : pySplit text with
    | nil =>
      have hwc : wrap_chars text m = [[]] := by
        unfold wrap_chars
        rw [hsp]
      rw [hwc] at hline
      rcases List.mem_singleton.mp hline with rfl
      simp at hlong
    | cons w0 rest =>
      have hwc : wrap_chars text m
          = (rest.foldl (wrapStep m) ([], w0)).1
            ++ [(rest.foldl (wrapStep m) ([], w0)).2] := by
        unfold wrap_chars
        rw [hsp]
      rw [hwc] at hline
      have hinv := wrap_fold_c6 m (w0 :: rest) rest ([], w0)
        (fun x hx => List.mem_cons_of_mem w0 hx)
        (by intro l hl; simp at hl)
        (by intro _; exact List.mem_cons_self w0 rest)
      rcases List.mem_append.mp hline with h | h
      · exact hinv.1 line h hlong
      · rcases List.mem_singleton.mp h with rfl
        exact hinv.2 hlong
  obtain ⟨hne, hws⟩ := pySplit_sound text line hmem
  exact ⟨hmem, pySplit_single line hne hws⟩

/-- Witness for C6: the spec's own scenario — wrapping
`"a very long singleword_without_spaces_that_exceeds_budget"` at 10
characters produces the 46-character word as a line standing alone. -/
theorem wrap_chars_overlong_witness :
    (("singleword_without_spaces_that_exceeds_budget".toList ∈
        wrap_chars ("a very long singleword_without_spaces_that_exceeds_budget".toList) 10) ∧
      10 < ("singleword_without_spaces_that_exceeds_budget".toList).length) ∧
    ("singleword_without_spaces_that_exceeds_budget".toList ∈
      pySplit ("a very long singleword_without_spaces_that_exceeds_budget".toList)) ∧
    pySplit ("singleword_without_spaces_that_exceeds_budget".toList)
      = ["singleword_without_spaces_that_exceeds_budget".toList] :=
  ⟨⟨by decide, by decide⟩,
    wrap_chars_overlong ("a very long singleword_without_spaces_that_exceeds_budget".toList) 10
      ("singleword_without_spaces_that_exceeds_budget".toList) (by decide) (by decide)⟩

lemma wrap_fold_groups (m : ℕ) :
    ∀ (rem : List Str) (acc : List Str × Str) (G : List (List Str)) (g : List Str),
      acc.1 = G.map joinSp → acc.2 = joinSp g → g ≠ [] → (∀ x ∈ G, x ≠ []) →
      ∃ (G' : List (List Str)) (g' : List Str),
        (rem.foldl (wrapStep m) acc).1 = G'.map joinSp ∧
        (rem.foldl (wrapStep m) acc).2 = joinSp g' ∧ g' ≠ [] ∧
        (∀ x ∈ G', x ≠ []) ∧ G'.flatten ++ g' = G.flatten ++ g ++ rem := by
  intro rem
  induction rem with
  | nil =>
    intro acc G g h1 h2 hg hG
    exact ⟨G, g, h1, h2, hg, hG, by simp⟩
  | cons w rem ih =>
    intro acc G g h1 h2 hg hG
    simp only [List.foldl_cons]
    by_cases hfit : acc.2.length + 1 + w.length ≤ m
    · have hstep : wrapStep m acc w = (acc.1, acc.2 ++ ' ' :: w) := by
        rw [wrapStep, if_pos hfit]
      rw [hstep]
      have h2' : acc.2 ++ ' ' :: w = joinSp (g ++ [w]) := by
        rw [h2, joinSp_append_word g w hg]
      obtain ⟨G', g', hh1, hh2, hh3, hh4, hh5⟩ :=
        ih (acc.1, acc.2 ++ ' ' :: w) G (g ++ [w]) h1 h2' (by simp) hG
      refine ⟨G', g', hh1, hh2, hh3, hh4, ?_⟩
      rw [hh5]
      simp [List.append_assoc]
    · have hstep : wrapStep m acc w = (acc.1 ++ [acc.2], w) := by
        rw [wrapStep, if_neg hfit]
      rw [hstep]
      have h1' : acc.1 ++ [acc.2] = (G ++ [g]).map joinSp := by
        rw [h1, h2, List.map_append]
        rfl
      have hGg : ∀ x ∈ G ++ [g], x ≠ [] := by
        intro x hx
        rcases List.mem_append.mp hx with hx | hx
        · exact hG x hx
        · rcases List.mem_singleton.mp hx with rfl
          exact hg
      obtain ⟨G', g', hh1, hh2, hh3, hh4, hh5⟩ :=
        ih (acc.1 ++ [acc.2], w) (G ++ [g]) [w] h1' rfl (by simp) hGg
      refine ⟨G', g', hh1, hh2, hh3, hh4, ?_⟩
      rw [hh5]
      simp [List.flatten_append, List.append_assoc]

lemma wrap_chars_groups (text : Str) (m : ℕ) (w0 : Str) (rest : List Str)
    (hsp : pySplit text = w0 :: rest) :
    ∃ G : List (List Str), (∀ g ∈ G, g ≠ []) ∧ G.flatten = pySplit text ∧
      wrap_chars text m = G.map joinSp := by
  have hwc : wrap_chars text m
      = (rest.foldl (wrapStep m) ([], w0)).1
        ++ [(rest.foldl (wrapStep m) ([], w0)).2] := by
    unfold wrap_chars
    rw [hsp]
  obtain ⟨G', g', hh1, hh2, hh3, hh4, hh5⟩ :=
    wrap_fold_groups m rest ([], w0) [] [w0] rfl rfl (by simp) (by simp)
  refine ⟨G' ++ [g'], ?_, ?_, ?_⟩
  · intro g hgm
    rcases List.mem_append.mp hgm with h | h
    · exact hh4 g h
    · rcases List.mem_singleton.mp h with rfl
      exact hh3
  · rw [List.flatten_append]
    simp only [List.flatten_cons, List.flatten_nil, List.append_nil]
    rw [hh5, hsp]
    simp
  · rw [hwc, hh1, hh2, List.map_append]
    rfl

lemma wrap_chars_roundtrip (text : Str) (m : ℕ) :
    pySplit (joinSp (wrap_chars text m)) = pySplit text := by
  cases hsp : pySplit text with
  | nil =>
    have hwc : wrap_chars text m = [[]] := by
      unfold wrap_chars
      rw [hsp]
    rw [hwc, show joinSp [[]] = [] from rfl]
    rw [show pySplit [] = [] from rfl]
  | cons w0 rest =>
    obtain ⟨G, hGne, hflat, hwc⟩ := wrap_chars_groups text m w0 rest hsp
    rw [hwc, joinSp_flatten G hGne, hflat, hsp]
    have := pySplit_joinSp (pySplit text) (pySplit_sound text)
    rw [hsp] at this
    exact this

lemma wc_fold_groups (mw : ℕ) (hmw : 0 < mw) :
    ∀ (rem : List Str) (acc : List Str × List Str) (G : List (List Str)),
      acc.1 = G.map joinSp → (∀ x ∈ G, x ≠ []) →
      ∃ G' : List (List Str), (rem.foldl (wcStep mw) acc).1 = G'.map joinSp ∧
        (∀ x ∈ G', x ≠ []) ∧
        G'.flatten ++ (rem.foldl (wcStep mw) acc).2 = G.flatten ++ acc.2 ++ rem := by
  intro rem
  induction rem with
  | nil =>
    intro acc G h1 hG
    exact ⟨G, h1, hG, by simp⟩
  | cons w rem ih =>
    intro acc G h1 hG
    simp only [List.foldl_cons]
    by_cases hfit : acc.2.length < mw
    · have hstep : wcStep mw acc w = (acc.1, acc.2 ++ [w]) := by
        rw [wcStep, if_pos hfit]
      rw [hstep]
      obtain ⟨G', hh1, hh2, hh3⟩ := ih (acc.1, acc.2 ++ [w]) G h1 hG
      refine ⟨G', hh1, hh2, ?_⟩
      rw [hh3]
      simp [List.append_assoc]
    · have hstep : wcStep mw acc w = (acc.1 ++ [joinSp acc.2], [w]) := by
        rw [wcStep, if_neg hfit]
      rw [hstep]
      have hne : acc.2 ≠ [] := by
        intro h
        rw [h] at hfit
        simp at hfit
        omega
      have h1' : acc.1 ++ [joinSp acc.2] = (G ++ [acc.2]).map joinSp := by
        rw [h1, List.map_append]
        rfl
      have hGg : ∀ x ∈ G ++ [acc.2], x ≠ [] := by
        intro x hx
        rcases List.mem_append.mp hx with hx | hx
        · exact hG x hx
        · rcases List.mem_singleton.mp hx with rfl
          exact hne
      obtain ⟨G', hh1, hh2, hh3⟩ := ih (acc.1 ++ [joinSp acc.2], [w]) (G ++ [acc.2]) h1' hGg
      refine ⟨G', hh1, hh2, ?_⟩
      rw [hh3]
      simp [List.flatten_append, List.append_assoc]

lemma wrap_by_wordcount_roundtrip (text : Str) (mw : ℕ) (hmw : 0 < mw) :
    pySplit (joinSp (wrap_by_wordcount text mw)) = pySplit text := by
  by_cases hne : pySplit text = []
  · have hwc : wrap_by_wordcount text mw = [[]] := by
      unfold wrap_by_wordcount
      rw [if_pos hne]
    rw [hwc, show joinSp [[]] = [] from rfl]
    rw [show pySplit [] = [] from rfl, hne]
  · have hwc : wrap_by_wordcount text mw
        = (if ((pySplit text).foldl (wcStep mw) ([], [])).2 = []
           then ((pySplit text).foldl (wcStep mw) ([], [])).1
           else ((pySplit text).foldl (wcStep mw) ([], [])).1
             ++ [joinSp ((pySplit text).foldl (wcStep mw) ([], [])).2]) := by
      unfold wrap_by_wordcount
      rw [if_neg hne]
    obtain ⟨G', hh1, hh2, hh3⟩ :=
      wc_fold_groups mw hmw (pySplit text) ([], []) [] rfl (by simp)
    simp only [List.flatten_nil, List.nil_append] at hh3
    by_cases hp2 : ((pySplit text).foldl (wcStep mw) ([], [])).2 = []
    · rw [hwc, if_pos hp2, hh1, joinSp_flatten G' hh2]
      have hfl : G'.flatten = pySplit text := by
        rw [hp2] at hh3
        simpa using hh3
      rw [hfl]
      exact pySplit_joinSp (pySplit text) (pySplit_sound text)
    · rw [hwc, if_neg hp2, hh1]
      have hmap : G'.map joinSp ++ [joinSp ((pySplit text).foldl (wcStep mw) ([], [])).2]
          = (G' ++ [((pySplit text).foldl (wcStep mw) ([], [])).2]).map joinSp := by
        rw [List.map_append]
        rfl
      have hall : ∀ x ∈ G' ++ [((pySplit text).foldl (wcStep mw) ([], [])).2], x ≠ [] := by
        intro x hx
        rcases List.mem_append.mp hx with hx | hx
        · exact hh2 x hx
        · rcases List.mem_singleton.mp hx with rfl
          exact hp2
      rw [hmap, joinSp_flatten _ hall]
      have hfl : (G' ++ [((pySplit text).foldl (wcStep mw) ([], [])).2]).flatten
          = pySplit text := by
        rw [List.flatten_append]
        simpa using hh3
      rw [hfl]
      exact pySplit_joinSp (pySplit text) (pySplit_sound text)

/-- **C7.** Round-trip on words: joining the lines of `wrap_chars` (any
`maxChars`) or of `wrap_by_wordcount` (any positive `maxWords`) with single
spaces and re-splitting on whitespace recovers exactly the whitespace-split
word sequence of the original text, in order. -/
theorem wrap_roundtrip (text : Str) (mc mw : ℕ) (hmw : 0 < mw) :
    pySplit (joinSp (wrap_chars text mc)) = pySplit text ∧
    pySplit (joinSp (wrap_by_wordcount text mw)) = pySplit text :=
  ⟨wrap_chars_roundtrip text mc, wrap_by_wordcount_roundtrip text mw hmw⟩

/-- Witness for C7 on the text `"ab cd ef"` with char budget 5 and word
budget 2. -/
theorem wrap_roundtrip_witness :
    0 < 2 ∧
    pySplit (joinSp (wrap_chars ("ab cd ef".toList) 5)) = pySplit ("ab cd ef".toList) ∧
    pySplit (joinSp (wrap_by_wordcount ("ab cd ef".toList) 2))
      = pySplit ("ab cd ef".toList) := by
  refine ⟨by norm_num, ?_, ?_⟩
  · exact (wrap_roundtrip ("ab cd ef".toList) 5 2 (by norm_num)).1
  · exact (wrap_roundtrip ("ab cd ef".toList) 5 2 (by norm_num)).2
